import Mathlib

/-!
Verification of the client-side runtime of the agent UI: the SSE stream
decoder (lib/api.ts, streamAgent), the trace tree builder
(trace-detail-viewer, buildSpanHierarchy), the pagination primitives
(ConversationDetail, memory-screen, traces-screen) and the memory response
accessors (memory-browser, memory-screen).

JavaScript strings are modelled as lists of characters; chunk boundaries
of the byte stream are modelled as the list structure of the chunk list.
JSON values are modelled by an inductive type with integer numerics; the
host JSON.parse is treated as a parameter where theorems are generic, and
is instantiated with parseJson, an executable recursive-descent parser
over the JSON fragment used by the concrete inputs in this file.
-/

set_option linter.unusedVariables false

/-- JavaScript strings, modelled as lists of characters. -/
abbrev Chars := List Char

/-- The character list of a Lean string literal. -/
def strOf (s : String) : Chars := s.data

/-- JSON values (numbers restricted to integers, sufficient for the
payloads analysed here). -/
inductive Json where
  | null : Json
  | bool (b : Bool) : Json
  | num (n : Int) : Json
  | str (s : Chars) : Json
  | arr (elems : List Json) : Json
  | obj (fields : List (Chars × Json)) : Json

/-- JavaScript truthiness of a parsed JSON value: null, false, 0 and the
empty string are falsy, everything else (including empty arrays and
objects) is truthy.  This is the semantics of the
`if (currentEvent.data)` test in streamAgent. -/
def jsTruthy : Json → Bool
  | .null => false
  | .bool b => b
  | .num n => n != 0
  | .str s => !s.isEmpty
  | .arr _ => true
  | .obj _ => true

/-- The `currentEvent` accumulator of streamAgent (a partial
StreamResponse object in the source): optional `event`, parsed `data`,
and `id` fields. -/
structure SseEvent where
  event : Option Chars
  dataVal : Option Json
  evId : Option Chars

/-- The fresh accumulator `{}`. -/
def emptyEvent : SseEvent := ⟨none, none, none⟩

/-- The body of the `for (const line of lines)` loop of streamAgent
(lib/api.ts lines 144-166).  Consumes the lines of one chunk, threading
the `currentEvent` accumulator; returns the list of yielded data values
together with a flag that is true when the `[DONE]` sentinel caused the
generator to return. -/
def processLines (parse : Chars → Option Json) :
    List Chars → SseEvent → List Json × Bool
  | [], _ => ([], false)
  | line :: rest, cur =>
    if (strOf "event: ").isPrefixOf line then
      processLines parse rest { cur with event := some (line.drop 7) }
    else if (strOf "data: ").isPrefixOf line then
      let dataStr := line.drop 6
      if dataStr = strOf "[DONE]" then
        ([], true)
      else
        match parse dataStr with
        | some v => processLines parse rest { cur with dataVal := some v }
        | none => processLines parse rest cur
    else if (strOf "id: ").isPrefixOf line then
      processLines parse rest { cur with evId := some (line.drop 4) }
    else if line = [] then
      match cur.dataVal with
      | some v =>
        if jsTruthy v then
          let res := processLines parse rest emptyEvent
          (v :: res.1, res.2)
        else
          processLines parse rest cur
      | none => processLines parse rest cur
    else
      processLines parse rest cur

/-- JavaScript `s.split('\n')`: splits a character list at every newline;
the result is always non-empty. -/
def splitNL : Chars → List Chars
  | [] => [[]]
  | c :: cs =>
    if c = '\n' then [] :: splitNL cs
    else
      match splitNL cs with
      | [] => [[c]]
      | h :: t => (c :: h) :: t

/-- Inverse of splitNL: joins a list of lines with newlines
(the underlying byte representation of a line sequence). -/
def joinNL : List Chars → Chars
  | [] => []
  | [l] => l
  | l :: ls => l ++ '\n' :: joinNL ls

/-- The chunk-consuming `while (true)` loop of streamAgent
(lib/api.ts lines 129-167): each chunk is appended to the carried text
buffer, the buffer is split into lines with the trailing (possibly
incomplete) line kept back, and the lines are processed with a FRESH
`currentEvent` accumulator (declared inside the loop in the source).
Decoding stops on the `[DONE]` sentinel or when the chunks are
exhausted; a trailing buffer is discarded. -/
def decodeChunks (parse : Chars → Option Json) :
    List Chars → Chars → List Json
  | [], _ => []
  | chunk :: rest, buffer =>
    let parts := splitNL (buffer ++ chunk)
    let newBuffer := parts.getLastD []
    let lines := parts.dropLast
    let res := processLines parse lines emptyEvent
    if res.2 then res.1 else res.1 ++ decodeChunks parse rest newBuffer

/-- The decode loop of streamAgent applied to a whole stream of chunks,
starting from the empty buffer. -/
def streamAgent (parse : Chars → Option Json) (chunks : List Chars) :
    List Json :=
  decodeChunks parse chunks []

/-- Decimal digit test, as used by the structured-value parser model. -/
def isDigit (c : Char) : Bool := '0' ≤ c && c ≤ '9'

/-- Skip JSON whitespace. -/
def skipWs : Chars → Chars
  | [] => []
  | c :: cs =>
    if c = ' ' ∨ c = '\t' ∨ c = '\n' ∨ c = '\r' then skipWs cs else c :: cs

/-- Take a maximal run of decimal digits. -/
def takeDigits : Chars → List Char × Chars
  | [] => ([], [])
  | c :: cs =>
    if isDigit c then
      let (ds, r) := takeDigits cs
      (c :: ds, r)
    else ([], c :: cs)

/-- Numeric value of a digit run. -/
def digitsVal (ds : List Char) : Nat :=
  ds.foldl (fun a c => a * 10 + (c.toNat - 48)) 0

/-- Consume the characters of a JSON string up to the closing quote
(escape sequences are outside the modelled fragment and rejected). -/
def takeStrChars : Chars → Option (Chars × Chars)
  | [] => none
  | c :: cs =>
    if c = '"' then some ([], cs)
    else if c = '\\' then none
    else
      match takeStrChars cs with
      | some (s, r) => some (c :: s, r)
      | none => none

/-- Parser modes: a single value, the items of an array after `[`, or
the members of an object after an opening brace. -/
inductive PMode where
  | val : PMode
  | arrItems (acc : List Json) : PMode
  | objItems (acc : List (Chars × Json)) : PMode

/-- Fuel-indexed recursive-descent parser over the modelled JSON
fragment (null, booleans, integers, escape-free strings, arrays,
objects). -/
def parseF : Nat → PMode → Chars → Option (Json × Chars)
  | 0, _, _ => none
  | fuel + 1, .val, s =>
    match s with
    | [] => none
    | c :: cs =>
      if c = 'n' then
        if (strOf "ull").isPrefixOf cs then some (.null, cs.drop 3) else none
      else if c = 't' then
        if (strOf "rue").isPrefixOf cs then some (.bool true, cs.drop 3) else none
      else if c = 'f' then
        if (strOf "alse").isPrefixOf cs then some (.bool false, cs.drop 4) else none
      else if c = '"' then
        match takeStrChars cs with
        | some (str, r) => some (.str str, r)
        | none => none
      else if c = '-' then
        match takeDigits cs with
        | ([], _) => none
        | (ds, r) => some (.num (-(digitsVal ds : Int)), r)
      else if isDigit c then
        let (ds, r) := takeDigits cs
        some (.num (digitsVal (c :: ds)), r)
      else if c = '[' then
        match skipWs cs with
        | ']' :: r => some (.arr [], r)
        | s1 => parseF fuel (.arrItems []) s1
      else if c = '{' then
        match skipWs cs with
        | '}' :: r => some (.obj [], r)
        | s1 => parseF fuel (.objItems []) s1
      else none
  | fuel + 1, .arrItems acc, s =>
    match parseF fuel .val (skipWs s) with
    | none => none
    | some (v, r) =>
      match skipWs r with
      | ',' :: r2 => parseF fuel (.arrItems (acc ++ [v])) r2
      | ']' :: r2 => some (.arr (acc ++ [v]), r2)
      | _ => none
  | fuel + 1, .objItems acc, s =>
    match skipWs s with
    | '"' :: r =>
      match takeStrChars r with
      | none => none
      | some (key, r2) =>
        match skipWs r2 with
        | ':' :: r3 =>
          match parseF fuel .val (skipWs r3) with
          | none => none
          | some (v, r4) =>
            match skipWs r4 with
            | ',' :: r5 => parseF fuel (.objItems (acc ++ [(key, v)])) r5
            | '}' :: r5 => some (.obj (acc ++ [(key, v)]), r5)
            | _ => none
        | _ => none
    | _ => none

/-- Model of the host structured-value parser (JSON.parse) restricted
to the fragment exercised by the concrete inputs of this development:
a parse succeeds only when the whole input is a single value of the
fragment.  Inputs such as `[DONE]` or malformed object literals fail,
as they do under the host parser. -/
def parseJson (s : Chars) : Option Json :=
  match parseF (s.length + 1) .val (skipWs s) with
  | some (v, rest) => if skipWs rest = [] then some v else none
  | none => none

/-- The unique line recognised as the termination sentinel:
a data line whose payload is the literal `[DONE]`. -/
def doneLine : Chars := strOf "data: [DONE]"

/-- The effect of one non-blank, non-sentinel line on the `currentEvent`
accumulator: field lines update their field (a data line only on a
successful parse), unrecognised lines are ignored. -/
def stepLine (parse : Chars → Option Json) (cur : SseEvent) (line : Chars) :
    SseEvent :=
  if (strOf "event: ").isPrefixOf line then
    { cur with event := some (line.drop 7) }
  else if (strOf "data: ").isPrefixOf line then
    match parse (line.drop 6) with
    | some v => { cur with dataVal := some v }
    | none => cur
  else if (strOf "id: ").isPrefixOf line then
    { cur with evId := some (line.drop 4) }
  else
    cur

theorem isPrefixOf_self_append (p l : Chars) : p.isPrefixOf (p ++ l) = true := by
  induction p with
  | nil => simp [List.isPrefixOf]
  | cons c cs ih => simp [List.isPrefixOf, ih]

theorem eventPre_ne_nil : strOf "event: " ≠ ([] : Chars) := by decide

theorem dataPre_ne_nil : strOf "data: " ≠ ([] : Chars) := by decide

theorem idPre_ne_nil : strOf "id: " ≠ ([] : Chars) := by decide

theorem doneStr_ne_nil : strOf "[DONE]" ≠ ([] : Chars) := by decide

theorem eq_append_drop_of_isPrefixOf :
    ∀ (p l : Chars), p.isPrefixOf l = true → l = p ++ l.drop p.length
  | [], l, _ => by simp
  | c :: cs, [], h => by simp [List.isPrefixOf] at h
  | c :: cs, d :: ds, h => by
    simp only [List.isPrefixOf, Bool.and_eq_true, beq_iff_eq] at h
    obtain ⟨rfl, h2⟩ := h
    simpa using eq_append_drop_of_isPrefixOf cs ds h2

theorem processLines_cons_field (parse : Chars → Option Json)
    (line : Chars) (rest : List Chars) (cur : SseEvent)
    (h1 : line ≠ []) (h2 : line ≠ doneLine) :
    processLines parse (line :: rest) cur
      = processLines parse rest (stepLine parse cur line) := by
  by_cases he : (strOf "event: ").isPrefixOf line
  · simp [processLines, stepLine, he]
  · by_cases hd : (strOf "data: ").isPrefixOf line
    · have hne : ¬ line.drop 6 = strOf "[DONE]" := by
        intro hcontra
        apply h2
        have h6 := eq_append_drop_of_isPrefixOf (strOf "data: ") line hd
        rw [show (strOf "data: ").length = 6 from rfl, hcontra] at h6
        exact h6
      cases hp : parse (line.drop 6) with
      | some v => simp [processLines, stepLine, he, hd, hne, hp]
      | none => simp [processLines, stepLine, he, hd, hne, hp]
    · by_cases hi : (strOf "id: ").isPrefixOf line
      · simp [processLines, stepLine, he, hd, hi]
      · simp [processLines, stepLine, he, hd, hi, h1]

theorem processLines_blank_none (parse : Chars → Option Json)
    (rest : List Chars) (cur : SseEvent) (h : cur.dataVal = none) :
    processLines parse ([] :: rest) cur = processLines parse rest cur := by
  simp [processLines, h, eventPre_ne_nil, dataPre_ne_nil, idPre_ne_nil,
    doneStr_ne_nil]

theorem processLines_blank_falsy (parse : Chars → Option Json)
    (rest : List Chars) (cur : SseEvent) (v : Json)
    (h : cur.dataVal = some v) (hf : jsTruthy v = false) :
    processLines parse ([] :: rest) cur = processLines parse rest cur := by
  simp [processLines, h, hf, eventPre_ne_nil, dataPre_ne_nil, idPre_ne_nil,
    doneStr_ne_nil]

theorem processLines_blank_truthy (parse : Chars → Option Json)
    (rest : List Chars) (cur : SseEvent) (v : Json)
    (h : cur.dataVal = some v) (ht : jsTruthy v = true) :
    processLines parse ([] :: rest) cur
      = (v :: (processLines parse rest emptyEvent).1,
         (processLines parse rest emptyEvent).2) := by
  simp [processLines, h, ht, eventPre_ne_nil, dataPre_ne_nil, idPre_ne_nil,
    doneStr_ne_nil]

theorem processLines_done (parse : Chars → Option Json)
    (rest : List Chars) (cur : SseEvent) :
    processLines parse (doneLine :: rest) cur = ([], true) := rfl

theorem processLines_append_fields (parse : Chars → Option Json)
    (ls : List Chars) (rest : List Chars) (cur : SseEvent)
    (h : ∀ l ∈ ls, l ≠ [] ∧ l ≠ doneLine) :
    processLines parse (ls ++ rest) cur
      = processLines parse rest (ls.foldl (stepLine parse) cur) := by
  induction ls generalizing cur with
  | nil => rfl
  | cons l ls ih =>
    have hl := h l (by simp)
    rw [List.cons_append,
      processLines_cons_field parse l (ls ++ rest) cur hl.1 hl.2,
      ih _ (fun x hx => h x (by simp [hx])), List.foldl_cons]

/-- Left-biased choice on optional values (the overwrite discipline of
the `currentEvent` fields). -/
def orOpt (a b : Option Json) : Option Json :=
  match a with
  | some v => some v
  | none => b

theorem orOpt_none_right (a : Option Json) : orOpt a none = a := by
  cases a <;> rfl

theorem orOpt_assoc (a b c : Option Json) :
    orOpt a (orOpt b c) = orOpt (orOpt a b) c := by
  cases a <;> rfl

theorem stepLine_dataVal (parse : Chars → Option Json) (cur : SseEvent)
    (line : Chars) :
    (stepLine parse cur line).dataVal
      = orOpt ((stepLine parse emptyEvent line).dataVal) cur.dataVal := by
  unfold stepLine
  by_cases he : (strOf "event: ").isPrefixOf line
  · simp [he, orOpt, emptyEvent]
  · by_cases hd : (strOf "data: ").isPrefixOf line
    · cases hp : parse (line.drop 6) <;> simp [he, hd, hp, orOpt, emptyEvent]
    · by_cases hi : (strOf "id: ").isPrefixOf line <;>
        simp [he, hd, hi, orOpt, emptyEvent]

theorem foldl_stepLine_dataVal (parse : Chars → Option Json)
    (ls : List Chars) :
    ∀ cur : SseEvent,
      (ls.foldl (stepLine parse) cur).dataVal
        = orOpt ((ls.foldl (stepLine parse) emptyEvent).dataVal)
            cur.dataVal := by
  induction ls with
  | nil =>
    intro cur
    simp [orOpt, emptyEvent]
  | cons l ls ih =>
    intro cur
    rw [List.foldl_cons, List.foldl_cons, ih (stepLine parse cur l),
      ih (stepLine parse emptyEvent l), stepLine_dataVal parse cur l,
      stepLine_dataVal parse emptyEvent l,
      show emptyEvent.dataVal = none from rfl, orOpt_none_right,
      orOpt_assoc]

/-- The final parsed data value of a record: the value of the last data
line of the record whose payload parses, if any. -/
def lastData (parse : Chars → Option Json) (r : List Chars) : Option Json :=
  (r.foldl (stepLine parse) emptyEvent).dataVal

/-- What streamAgent emits for one blank-line-terminated record: the
last successfully parsed data value, provided it is truthy; nothing
otherwise. -/
def recordEmission (parse : Chars → Option Json) (r : List Chars) :
    Option Json :=
  match lastData parse r with
  | some v => if jsTruthy v then some v else none
  | none => none

/-- The line sequence of a list of records, each record terminated by a
blank line. -/
def flattenRecs : List (List Chars) → List Chars
  | [] => []
  | r :: rs => r ++ [] :: flattenRecs rs

theorem processLines_records (parse : Chars → Option Json)
    (rs : List (List Chars)) (tail : List Chars)
    (htail : ∀ l ∈ tail, l ≠ [] ∧ l ≠ doneLine) :
    ∀ cur : SseEvent,
      (∀ r ∈ rs, ∀ l ∈ r, l ≠ [] ∧ l ≠ doneLine) →
      (∀ v, cur.dataVal = some v → jsTruthy v = false) →
      processLines parse (flattenRecs rs ++ tail) cur
        = (rs.filterMap (recordEmission parse), false) := by
  induction rs with
  | nil =>
    intro cur hrs hcur
    rw [flattenRecs, List.nil_append]
    have hta := processLines_append_fields parse tail [] cur htail
    rw [List.append_nil] at hta
    rw [hta]
    rfl
  | cons r rs ih =>
    intro cur hrs hcur
    have hr : ∀ l ∈ r, l ≠ [] ∧ l ≠ doneLine := hrs r (by simp)
    have hrs' : ∀ x ∈ rs, ∀ l ∈ x, l ≠ [] ∧ l ≠ doneLine :=
      fun x hx => hrs x (by simp [hx])
    rw [flattenRecs, List.append_assoc, List.cons_append,
      processLines_append_fields parse r _ cur hr]
    have hdv : (r.foldl (stepLine parse) cur).dataVal
        = orOpt (lastData parse r) cur.dataVal :=
      foldl_stepLine_dataVal parse r cur
    cases hld : lastData parse r with
    | some v =>
      have hsome : (r.foldl (stepLine parse) cur).dataVal = some v := by
        rw [hdv, hld]; rfl
      by_cases ht : jsTruthy v
      · rw [processLines_blank_truthy parse _ _ v hsome ht,
          ih emptyEvent hrs' (by simp [emptyEvent])]
        simp [recordEmission, hld, ht]
      · have htf : jsTruthy v = false := by simpa using ht
        rw [processLines_blank_falsy parse _ _ v hsome htf,
          ih _ hrs' (fun w hw => by
            rw [hsome] at hw
            cases hw
            exact htf)]
        simp [recordEmission, hld, htf]
    | none =>
      have hkeep : (r.foldl (stepLine parse) cur).dataVal = cur.dataVal := by
        rw [hdv, hld]; rfl
      cases hc : cur.dataVal with
      | some w =>
        have hw := hcur w hc
        rw [processLines_blank_falsy parse _ _ w (by rw [hkeep, hc]) hw,
          ih _ hrs' (fun u hu => by
            rw [hkeep, hc] at hu
            cases hu
            exact hw)]
        simp [recordEmission, hld]
      | none =>
        rw [processLines_blank_none parse _ _ (by rw [hkeep, hc]),
          ih _ hrs' (fun u hu => by
            rw [hkeep, hc] at hu
            exact absurd hu (by simp))]
        simp [recordEmission, hld]

theorem splitNL_ne_nil (s : Chars) : splitNL s ≠ [] := by
  induction s with
  | nil => simp [splitNL]
  | cons c cs ih =>
    rw [splitNL]
    by_cases hc : c = '\n'
    · simp [hc]
    · simp only [hc, if_false]
      cases h : splitNL cs with
      | nil => simp
      | cons a t => simp

theorem splitNL_no_newline (l : Chars) (h : '\n' ∉ l) : splitNL l = [l] := by
  induction l with
  | nil => rfl
  | cons c cs ih =>
    have hc : ¬ c = '\n' := fun hcc => h (by simp [hcc])
    rw [splitNL, if_neg hc, ih (fun hm => h (by simp [hm]))]

theorem splitNL_append_newline (l s : Chars) (h : '\n' ∉ l) :
    splitNL (l ++ '\n' :: s) = l :: splitNL s := by
  induction l with
  | nil => simp [splitNL]
  | cons c cs ih =>
    have hc : ¬ c = '\n' := fun hcc => h (by simp [hcc])
    rw [List.cons_append, splitNL, if_neg hc,
      ih (fun hm => h (by simp [hm]))]

theorem joinNL_cons (l : Chars) (ls : List Chars) (h : ls ≠ []) :
    joinNL (l :: ls) = l ++ '\n' :: joinNL ls := by
  cases ls with
  | nil => exact absurd rfl h
  | cons a t => rfl

theorem splitNL_joinNL (ls : List Chars) (h : ls ≠ [])
    (h2 : ∀ l ∈ ls, '\n' ∉ l) : splitNL (joinNL ls) = ls := by
  induction ls with
  | nil => exact absurd rfl h
  | cons l t ih =>
    cases t with
    | nil =>
      show splitNL (joinNL [l]) = [l]
      rw [joinNL]
      exact splitNL_no_newline l (h2 l (by simp))
    | cons a t2 =>
      rw [joinNL_cons l (a :: t2) (by simp),
        splitNL_append_newline l _ (h2 l (by simp)),
        ih (by simp) (fun x hx => h2 x (by simp [hx]))]

theorem getLastD_concat_chars (l : List Chars) (b : Chars) :
    (l ++ [b]).getLastD [] = b := by
  induction l with
  | nil => rfl
  | cons a t ih =>
    rw [List.cons_append]
    cases h : t ++ [b] with
    | nil => exact absurd h (by simp)
    | cons x y =>
      rw [List.getLastD_cons]
      rw [h] at ih
      simpa [List.getLastD] using ih

/-- Unfolding of one decode iteration when the chunk is a newline join
of full lines followed by a trailing buffer remainder. -/
theorem decodeChunks_cons_eq (parse : Chars → Option Json)
    (L : List Chars) (b : Chars) (cs : List Chars)
    (hL : ∀ l ∈ L, '\n' ∉ l) (hb : '\n' ∉ b) :
    decodeChunks parse (joinNL (L ++ [b]) :: cs) []
      = (if (processLines parse L emptyEvent).2
         then (processLines parse L emptyEvent).1
         else (processLines parse L emptyEvent).1
            ++ decodeChunks parse cs b) := by
  have hsplit : splitNL (joinNL (L ++ [b])) = L ++ [b] :=
    splitNL_joinNL (L ++ [b]) (by simp)
      (by
        intro x hx
        rcases List.mem_append.1 hx with h1 | h1
        · exact hL x h1
        · simpa [List.mem_singleton.1 h1] using hb)
  simp only [decodeChunks, List.nil_append, hsplit,
    getLastD_concat_chars, List.dropLast_concat]

theorem decodeChunks_nil (parse : Chars → Option Json) (b : Chars) :
    decodeChunks parse [] b = [] := rfl

theorem mem_flattenRecs (l : Chars) (rs : List (List Chars)) :
    l ∈ flattenRecs rs → l = [] ∨ ∃ r ∈ rs, l ∈ r := by
  induction rs with
  | nil => intro h; simp [flattenRecs] at h
  | cons r t ih =>
    intro h
    rw [flattenRecs] at h
    rcases List.mem_append.1 h with h1 | h1
    · exact Or.inr ⟨r, by simp, h1⟩
    · rcases List.mem_cons.1 h1 with h2 | h2
      · exact Or.inl h2
      · rcases ih h2 with h3 | ⟨x, hx, hlx⟩
        · exact Or.inl h3
        · exact Or.inr ⟨x, by simp [hx], hlx⟩

theorem isPrefixOf_cons_ne (a b : Char) (x y : Chars) (h : (a == b) = false) :
    (a :: x).isPrefixOf (b :: y) = false := by
  simp [List.isPrefixOf, h]

theorem dataLine_not_event (p : Chars) :
    (strOf "event: ").isPrefixOf (strOf "data: " ++ p) = false := by
  rw [show strOf "event: " = 'e' :: strOf "vent: " from rfl,
    show strOf "data: " ++ p = 'd' :: (strOf "ata: " ++ p) from rfl]
  exact isPrefixOf_cons_ne _ _ _ _ rfl

theorem dataLine_is_data (p : Chars) :
    (strOf "data: ").isPrefixOf (strOf "data: " ++ p) = true :=
  isPrefixOf_self_append _ _

theorem dataLine_drop (p : Chars) : (strOf "data: " ++ p).drop 6 = p :=
  List.drop_left (strOf "data: ") p

theorem dataLine_ne_nil (p : Chars) : (strOf "data: " ++ p) ≠ [] := by
  rw [show strOf "data: " ++ p = 'd' :: (strOf "ata: " ++ p) from rfl]
  simp

theorem dataLine_ne_done (p : Chars) (h : p ≠ strOf "[DONE]") :
    (strOf "data: " ++ p) ≠ doneLine := by
  intro hcontra
  apply h
  exact List.append_cancel_left
    (hcontra.trans (show doneLine = strOf "data: " ++ strOf "[DONE]" from rfl))

theorem dataLine_no_newline (p : Chars) (h : '\n' ∉ p) :
    '\n' ∉ strOf "data: " ++ p := by
  intro hm
  rcases List.mem_append.1 hm with h1 | h1
  · exact absurd h1 (by decide)
  · exact h h1

theorem stepLine_data (parse : Chars → Option Json) (cur : SseEvent)
    (q : Chars) (v : Json) (hq : parse q = some v) :
    stepLine parse cur (strOf "data: " ++ q) = { cur with dataVal := some v } := by
  unfold stepLine
  rw [dataLine_drop]
  simp [dataLine_not_event, dataLine_is_data, hq]

theorem lastData_concat_data (parse : Chars → Option Json) (xs : List Chars)
    (q : Chars) (v : Json) (hq : parse q = some v) :
    lastData parse (xs ++ [strOf "data: " ++ q]) = some v := by
  unfold lastData
  rw [List.foldl_append, List.foldl_cons, List.foldl_nil,
    stepLine_data parse _ q v hq]

theorem processLines_stop_at_done (parse : Chars → Option Json) :
    ∀ ls₁ : List Chars, doneLine ∉ ls₁ →
      ∀ (cur : SseEvent) (rest : List Chars),
        processLines parse (ls₁ ++ doneLine :: rest) cur
          = processLines parse (ls₁ ++ [doneLine]) cur
        ∧ (processLines parse (ls₁ ++ [doneLine]) cur).2 = true := by
  intro ls₁
  induction ls₁ with
  | nil =>
    intro h cur rest
    rw [List.nil_append, List.nil_append, processLines_done,
      processLines_done]
    exact ⟨rfl, rfl⟩
  | cons l t ih =>
    intro h cur rest
    have hl : l ≠ doneLine := fun he => h (by simp [he])
    have ht : doneLine ∉ t := fun hm => h (by simp [hm])
    by_cases hnil : l = []
    · subst hnil
      cases hc : cur.dataVal with
      | some v =>
        by_cases htr : jsTruthy v
        · rw [List.cons_append, List.cons_append,
            processLines_blank_truthy parse _ cur v hc htr,
            processLines_blank_truthy parse _ cur v hc htr]
          have hrec := ih ht emptyEvent rest
          exact ⟨by rw [hrec.1], hrec.2⟩
        · have htf : jsTruthy v = false := by simpa using htr
          rw [List.cons_append, List.cons_append,
            processLines_blank_falsy parse _ cur v hc htf,
            processLines_blank_falsy parse _ cur v hc htf]
          exact ih ht cur rest
      | none =>
        rw [List.cons_append, List.cons_append,
          processLines_blank_none parse _ cur hc,
          processLines_blank_none parse _ cur hc]
        exact ih ht cur rest
    · rw [List.cons_append, List.cons_append,
        processLines_cons_field parse l _ cur hnil hl,
        processLines_cons_field parse l _ cur hnil hl]
      exact ih ht _ rest

theorem processLines_skip_bad (parse : Chars → Option Json) (p : Chars)
    (hp : parse p = none) (hdone : p ≠ strOf "[DONE]") :
    ∀ (ls₁ ls₂ : List Chars) (cur : SseEvent),
      processLines parse (ls₁ ++ (strOf "data: " ++ p) :: ls₂) cur
        = processLines parse (ls₁ ++ ls₂) cur := by
  intro ls₁
  induction ls₁ with
  | nil =>
    intro ls₂ cur
    rw [List.nil_append, List.nil_append]
    have hdl := dataLine_drop p
    simp [processLines, dataLine_not_event, dataLine_is_data, hdl, hdone, hp]
  | cons l t ih =>
    intro ls₂ cur
    by_cases hld : l = doneLine
    · subst hld
      rw [List.cons_append, List.cons_append, processLines_done,
        processLines_done]
    · by_cases hnil : l = []
      · subst hnil
        cases hc : cur.dataVal with
        | some v =>
          by_cases htr : jsTruthy v
          · rw [List.cons_append, List.cons_append,
              processLines_blank_truthy parse _ cur v hc htr,
              processLines_blank_truthy parse _ cur v hc htr,
              ih ls₂ emptyEvent]
          · have htf : jsTruthy v = false := by simpa using htr
            rw [List.cons_append, List.cons_append,
              processLines_blank_falsy parse _ cur v hc htf,
              processLines_blank_falsy parse _ cur v hc htf,
              ih ls₂ cur]
        | none =>
          rw [List.cons_append, List.cons_append,
            processLines_blank_none parse _ cur hc,
            processLines_blank_none parse _ cur hc,
            ih ls₂ cur]
      · rw [List.cons_append, List.cons_append,
          processLines_cons_field parse l _ cur hnil hld,
          processLines_cons_field parse l _ cur hnil hld,
          ih ls₂ _]

theorem splitNL_joinNL_append (L M : List Chars)
    (hL : ∀ l ∈ L, '\n' ∉ l) (hM : M ≠ []) :
    splitNL (joinNL (L ++ M)) = L ++ splitNL (joinNL M) := by
  induction L with
  | nil => simp
  | cons l t ih =>
    have htM : t ++ M ≠ [] := by
      intro hc
      exact hM (List.append_eq_nil.1 hc).2
    rw [List.cons_append, joinNL_cons l (t ++ M) htM,
      splitNL_append_newline l _ (hL l (by simp)),
      ih (fun x hx => hL x (by simp [hx]))]
    rfl

/-- C1 (code bug in streamAgent): splitting the same SSE bytes at a
chunk boundary that separates a data line from the blank line closing
its record changes the decoded output.  The whole representation
`data: ...` + newline + newline decodes to one record, while the split
into the chunks `data: ...` + newline and newline decodes to none,
because the `currentEvent` accumulator is declared inside the chunk
loop and is discarded at every chunk boundary. -/
theorem streamAgent_chunk_split_drops_record :
    streamAgent parseJson [strOf "data: \x7b\"a\":1\x7d\n", strOf "\n"] = []
    ∧ streamAgent parseJson [strOf "data: \x7b\"a\":1\x7d\n\n"]
        = [Json.obj [(strOf "a", Json.num 1)]] :=
  ⟨rfl, rfl⟩

/-- C5, counterexample to the claim as stated: the payload `null`
parses successfully, the blank line closes the record, yet the record
is not emitted, because `if (currentEvent.data)` tests JavaScript
truthiness of the parsed value, not parse success. -/
theorem null_payload_record_dropped_counterexample :
    (parseJson (strOf "null")).isSome = true
    ∧ streamAgent parseJson [strOf "data: null\n\n"] = [] :=
  ⟨rfl, rfl⟩

/-- C5 (amended): fed a single chunk consisting of blank-line-closed
records followed by an unterminated remainder, streamAgent emits
exactly one value per record whose last successfully parsed data value
is truthy, namely that value, and nothing for any other record; the
trailing remainder contributes nothing. -/
theorem streamAgent_emission_characterization
    (parse : Chars → Option Json) (rs : List (List Chars))
    (tail : List Chars) (b : Chars)
    (hrs : ∀ r ∈ rs, ∀ l ∈ r, l ≠ [] ∧ l ≠ doneLine ∧ '\n' ∉ l)
    (htail : ∀ l ∈ tail, l ≠ [] ∧ l ≠ doneLine ∧ '\n' ∉ l)
    (hb : '\n' ∉ b) :
    streamAgent parse [joinNL ((flattenRecs rs ++ tail) ++ [b])]
      = rs.filterMap (recordEmission parse) := by
  have hL : ∀ l ∈ flattenRecs rs ++ tail, '\n' ∉ l := by
    intro l hl
    rcases List.mem_append.1 hl with h1 | h1
    · rcases mem_flattenRecs l rs h1 with h2 | ⟨r, hr, hlr⟩
      · simp [h2]
      · exact (hrs r hr l hlr).2.2
    · exact (htail l h1).2.2
  rw [streamAgent, decodeChunks_cons_eq parse _ b [] hL hb,
    processLines_records parse rs tail
      (fun l hl => ⟨(htail l hl).1, (htail l hl).2.1⟩)
      emptyEvent
      (fun r hr l hl => ⟨(hrs r hr l hl).1, (hrs r hr l hl).2.1⟩)
      (by simp [emptyEvent])]
  simp [decodeChunks_nil]

theorem streamAgent_emission_characterization_witness :
    streamAgent parseJson
        [joinNL ((flattenRecs [[strOf "data: true"], [strOf "data: null"]]
            ++ [strOf "id: 7"]) ++ [[]])]
      = List.filterMap (recordEmission parseJson)
          [[strOf "data: true"], [strOf "data: null"]] :=
  streamAgent_emission_characterization parseJson
    [[strOf "data: true"], [strOf "data: null"]] [strOf "id: 7"] []
    (by decide) (by decide) (by decide)

/-- C6 (confirmed): as soon as a chunk contains the `data: [DONE]`
line, decoding stops: the output is exactly what the lines before the
sentinel produced, independent of everything after the sentinel in the
chunk, of all later chunks, and of any partially accumulated record. -/
theorem streamAgent_done_terminates (parse : Chars → Option Json)
    (ls₁ ls₂ cs : List Chars)
    (h1 : ∀ l ∈ ls₁, '\n' ∉ l ∧ l ≠ doneLine) (h2 : ls₂ ≠ []) :
    streamAgent parse (joinNL (ls₁ ++ doneLine :: ls₂) :: cs)
      = (processLines parse (ls₁ ++ [doneLine]) emptyEvent).1 := by
  have hsplit : splitNL (joinNL (ls₁ ++ doneLine :: ls₂))
      = (ls₁ ++ [doneLine]) ++ splitNL (joinNL ls₂) := by
    rw [show ls₁ ++ doneLine :: ls₂ = (ls₁ ++ [doneLine]) ++ ls₂ by simp]
    refine splitNL_joinNL_append (ls₁ ++ [doneLine]) ls₂ ?_ h2
    intro x hx
    rcases List.mem_append.1 hx with hx1 | hx1
    · exact (h1 x hx1).1
    · rw [List.mem_singleton.1 hx1]
      decide
  have hstop := processLines_stop_at_done parse ls₁
    (fun hm => ((h1 doneLine hm).2 rfl)) emptyEvent
    ((splitNL (joinNL ls₂)).dropLast)
  simp only [streamAgent, decodeChunks, List.nil_append]
  rw [hsplit, List.dropLast_append_of_ne_nil _ (splitNL_ne_nil _),
    List.append_assoc, List.singleton_append, hstop.1,
    if_pos ((processLines_stop_at_done parse ls₁
      (fun hm => ((h1 doneLine hm).2 rfl)) emptyEvent []).2)]

theorem streamAgent_done_terminates_witness :
    streamAgent parseJson
        (joinNL ([strOf "data: true", []] ++ doneLine
            :: [strOf "data: \x7b\"a\":1\x7d", [], []])
          :: [strOf "data: \x7b\"b\":2\x7d\n\n"])
      = (processLines parseJson ([strOf "data: true", []] ++ [doneLine])
          emptyEvent).1 :=
  streamAgent_done_terminates parseJson [strOf "data: true", []]
    [strOf "data: \x7b\"a\":1\x7d", [], []]
    [strOf "data: \x7b\"b\":2\x7d\n\n"] (by decide) (by decide)

/-- C7 (confirmed): a data line whose payload does not parse (and is
not the sentinel) is dropped without any effect: the decoded stream
with the malformed line inserted equals the decoded stream without it,
so decoding continues and every subsequent record is still emitted. -/
theorem streamAgent_bad_data_line_skipped (parse : Chars → Option Json)
    (p : Chars) (ls₁ ls₂ : List Chars) (b : Chars) (cs : List Chars)
    (hp : parse p = none) (hdone : p ≠ strOf "[DONE]") (hpn : '\n' ∉ p)
    (hL : ∀ l ∈ ls₁ ++ ls₂, '\n' ∉ l) (hb : '\n' ∉ b) :
    streamAgent parse
        (joinNL ((ls₁ ++ (strOf "data: " ++ p) :: ls₂) ++ [b]) :: cs)
      = streamAgent parse (joinNL ((ls₁ ++ ls₂) ++ [b]) :: cs) := by
  have hL1 : ∀ l ∈ ls₁ ++ (strOf "data: " ++ p) :: ls₂, '\n' ∉ l := by
    intro l hl
    rcases List.mem_append.1 hl with h1 | h1
    · exact hL l (List.mem_append.2 (Or.inl h1))
    · rcases List.mem_cons.1 h1 with h2 | h2
      · rw [h2]; exact dataLine_no_newline p hpn
      · exact hL l (List.mem_append.2 (Or.inr h2))
  rw [streamAgent, streamAgent,
    decodeChunks_cons_eq parse _ b cs hL1 hb,
    decodeChunks_cons_eq parse _ b cs hL hb,
    processLines_skip_bad parse p hp hdone ls₁ ls₂ emptyEvent]

theorem streamAgent_bad_data_line_skipped_witness :
    streamAgent parseJson
        (joinNL (([strOf "data: \x7b\"a\":1\x7d", []]
            ++ (strOf "data: " ++ strOf "\x7bnot valid\x7d")
            :: [[], strOf "data: \x7b\"b\":2\x7d", []]) ++ [[]]) :: [])
      = streamAgent parseJson
          (joinNL (([strOf "data: \x7b\"a\":1\x7d", []]
              ++ [[], strOf "data: \x7b\"b\":2\x7d", []]) ++ [[]]) :: []) :=
  streamAgent_bad_data_line_skipped parseJson (strOf "\x7bnot valid\x7d")
    [strOf "data: \x7b\"a\":1\x7d", []] [[], strOf "data: \x7b\"b\":2\x7d", []]
    [] [] (by rfl) (by decide) (by decide) (by decide) (by decide)

/-- C10, counterexample to the claim as stated: a record with two data
lines whose payloads both parse successfully can yield no event at all,
when the last parsed value (here `null`) is falsy. -/
theorem multi_data_last_null_counterexample :
    (parseJson (strOf "\x7b\"a\":1\x7d")).isSome = true
    ∧ (parseJson (strOf "null")).isSome = true
    ∧ streamAgent parseJson
        [strOf "data: \x7b\"a\":1\x7d\ndata: null\n\n"] = [] :=
  ⟨rfl, rfl, rfl⟩

/-- C10 (amended): a record consisting of several data lines that all
parse successfully yields at most one event: exactly the parsed value
of the last data line when that value is truthy, and nothing when it
is falsy.  Earlier data lines are overwritten, never emitted. -/
theorem multi_data_lines_last_wins (parse : Chars → Option Json)
    (ps : List Chars) (q : Chars) (v : Json)
    (hne : ps ≠ [])
    (hall : ∀ p ∈ ps ++ [q], '\n' ∉ p ∧ p ≠ strOf "[DONE]" ∧ (parse p).isSome)
    (hq : parse q = some v) :
    streamAgent parse
        [joinNL ((flattenRecs [(ps ++ [q]).map (fun p => strOf "data: " ++ p)]
            ++ []) ++ [[]])]
      = if jsTruthy v then [v] else [] := by
  have hrec : ∀ r ∈ [(ps ++ [q]).map (fun p => strOf "data: " ++ p)],
      ∀ l ∈ r, l ≠ [] ∧ l ≠ doneLine ∧ '\n' ∉ l := by
    intro r hr l hl
    rw [List.mem_singleton.1 hr] at hl
    rcases List.mem_map.1 hl with ⟨p, hpmem, rfl⟩
    exact ⟨dataLine_ne_nil p, dataLine_ne_done p (hall p hpmem).2.1,
      dataLine_no_newline p (hall p hpmem).1⟩
  have hL : ∀ l ∈ flattenRecs [(ps ++ [q]).map (fun p => strOf "data: " ++ p)]
      ++ ([] : List Chars), '\n' ∉ l := by
    intro l hl
    rw [List.append_nil] at hl
    rcases mem_flattenRecs l _ hl with h1 | ⟨r, hr, hlr⟩
    · simp [h1]
    · exact (hrec r hr l hlr).2.2
  rw [streamAgent, decodeChunks_cons_eq parse _ [] [] hL (by decide),
    processLines_records parse _ [] (by intro l hl; cases hl)
      emptyEvent
      (fun r hr l hl => ⟨(hrec r hr l hl).1, (hrec r hr l hl).2.1⟩)
      (by simp [emptyEvent])]
  have hlast : lastData parse
      ((ps ++ [q]).map (fun p => strOf "data: " ++ p)) = some v := by
    rw [List.map_append, List.map_singleton]
    exact lastData_concat_data parse _ q v hq
  simp only [List.filterMap_cons, List.filterMap_nil, recordEmission, hlast]
  by_cases htr : jsTruthy v <;> simp [htr, decodeChunks_nil]

theorem multi_data_lines_last_wins_witness :
    streamAgent parseJson
        [joinNL ((flattenRecs
            [([strOf "\x7b\"a\":1\x7d"] ++ [strOf "\x7b\"b\":2\x7d"]).map
              (fun p => strOf "data: " ++ p)] ++ []) ++ [[]])]
      = if jsTruthy (Json.obj [(strOf "b", Json.num 2)])
        then [Json.obj [(strOf "b", Json.num 2)]] else [] :=
  multi_data_lines_last_wins parseJson [strOf "\x7b\"a\":1\x7d"]
    (strOf "\x7b\"b\":2\x7d") (Json.obj [(strOf "b", Json.num 2)])
    (by decide) (by decide) (by rfl)

/-- A trace span as consumed by buildSpanHierarchy
(trace-detail-viewer): an id, an optional parent reference, and its
payload fields. -/
structure UITraceSpan where
  id : String
  parent_id : Option String
  name : String
  spanType : String
  duration_ms : Nat
deriving DecidableEq

/-- The output shape of buildSpanHierarchy: the root list, and the
children list attached to the node of each id (children of unknown ids
are empty). -/
structure SpanHierarchy where
  roots : List UITraceSpan
  childrenOf : String → List UITraceSpan

/-- `spanMap.has(p)`: whether some input span carries the id. -/
def hasId (spans : List UITraceSpan) (p : String) : Bool :=
  spans.any (fun t => t.id == p)

/-- `spanMap.get(i)`: the map is filled left to right with `set`, so a
duplicated id keeps the last span. -/
def spanLookup (spans : List UITraceSpan) (i : String) :
    Option UITraceSpan :=
  (spans.filter (fun t => t.id == i)).getLast?

/-- The node object `spanMap.get(span.id)` pushed by the second pass;
for present spans the lookup always succeeds, the default is never
reached. -/
def nodeOf (spans : List UITraceSpan) (s : UITraceSpan) : UITraceSpan :=
  (spanLookup spans s.id).getD s

/-- One iteration of the second `spans.forEach` pass of
buildSpanHierarchy (trace-detail-viewer lines 105-112): a span with a
truthy `parent_id` that is present in the index is appended to that
parent's children, otherwise it is appended to the root list. -/
def hierStep (ctx : List UITraceSpan) (h : SpanHierarchy)
    (s : UITraceSpan) : SpanHierarchy :=
  match s.parent_id with
  | some p =>
    if (p != "") && hasId ctx p then
      { h with childrenOf := fun i =>
          if i = p then h.childrenOf i ++ [nodeOf ctx s]
          else h.childrenOf i }
    else { h with roots := h.roots ++ [nodeOf ctx s] }
  | none => { h with roots := h.roots ++ [nodeOf ctx s] }

/-- buildSpanHierarchy (trace-detail-viewer lines 95-115): index all
spans by id, then fold the hierarchy step over the input order. -/
def buildSpanHierarchy (spans : List UITraceSpan) : SpanHierarchy :=
  spans.foldl (hierStep spans) ⟨[], fun _ => []⟩

/-- The root test of the second pass: parent reference absent, empty
(falsy), or unknown. -/
def isRootB (ctx : List UITraceSpan) (s : UITraceSpan) : Bool :=
  match s.parent_id with
  | some p => !((p != "") && hasId ctx p)
  | none => true

/-- Membership test for the children list of id `i`. -/
def childB (ctx : List UITraceSpan) (i : String) (s : UITraceSpan) : Bool :=
  match s.parent_id with
  | some p => (p == i) && (p != "") && hasId ctx p
  | none => false

theorem hier_roots_spec (ctx : List UITraceSpan) (l : List UITraceSpan) :
    ∀ h0 : SpanHierarchy,
      (l.foldl (hierStep ctx) h0).roots
        = h0.roots ++ (l.filter (isRootB ctx)).map (nodeOf ctx) := by
  induction l with
  | nil => intro h0; simp
  | cons s t ih =>
    intro h0
    rw [List.foldl_cons, ih (hierStep ctx h0 s)]
    cases hp : s.parent_id with
    | none =>
      simp [hierStep, hp, isRootB, List.filter_cons, List.append_assoc]
    | some p =>
      by_cases hc : ((p != "") && hasId ctx p) = true
      · simp [hierStep, hp, hc, isRootB, List.filter_cons]
      · simp only [Bool.not_eq_true] at hc
        simp [hierStep, hp, hc, isRootB, List.filter_cons,
          List.append_assoc]

theorem hier_children_spec (ctx : List UITraceSpan) (l : List UITraceSpan) :
    ∀ (h0 : SpanHierarchy) (i : String),
      (l.foldl (hierStep ctx) h0).childrenOf i
        = h0.childrenOf i ++ (l.filter (childB ctx i)).map (nodeOf ctx) := by
  induction l with
  | nil => intro h0 i; simp
  | cons s t ih =>
    intro h0 i
    rw [List.foldl_cons, ih (hierStep ctx h0 s)]
    cases hp : s.parent_id with
    | none =>
      simp [hierStep, hp, childB, List.filter_cons]
    | some p =>
      by_cases hc : ((p != "") && hasId ctx p) = true
      · by_cases hi : i = p
        · subst hi
          simp [hierStep, hp, hc, childB, List.filter_cons,
            List.append_assoc]
        · have hpi : (p == i) = false := by
            simp [beq_iff_eq]
            exact fun hcc => hi hcc.symm
          simp [hierStep, hp, hc, childB, List.filter_cons, hpi, hi]
      · simp only [Bool.not_eq_true] at hc
        have hcb : childB ctx i s = false := by
          simp only [childB, hp]
          cases hpi : (p == i)
          · simp
          · simp only [Bool.true_and]
            exact hc
        simp [hierStep, hp, hc, hcb, List.filter_cons]

theorem map_self_of_eq {α : Type} (l : List α) (f : α → α)
    (h : ∀ x ∈ l, f x = x) : l.map f = l := by
  induction l with
  | nil => rfl
  | cons a t ih =>
    rw [List.map_cons, h a (by simp), ih (fun x hx => h x (by simp [hx]))]

theorem filter_id_singleton (spans : List UITraceSpan)
    (hnodup : (spans.map (fun s => s.id)).Nodup) (s : UITraceSpan)
    (hs : s ∈ spans) :
    spans.filter (fun t => t.id == s.id) = [s] := by
  induction spans with
  | nil => cases hs
  | cons a t ih =>
    rw [List.map_cons, List.nodup_cons] at hnodup
    rcases List.mem_cons.1 hs with rfl | hmem
    · rw [List.filter_cons_of_pos (by simp)]
      have hnil : t.filter (fun x => x.id == s.id) = [] := by
        rw [List.filter_eq_nil_iff]
        intro x hx
        simp only [beq_iff_eq]
        intro hxe
        exact hnodup.1 (by rw [← hxe]; exact List.mem_map_of_mem _ hx)
      rw [hnil]
    · have hne2 : (a.id == s.id) = false := by
        simp only [beq_eq_false_iff_ne, ne_eq]
        intro hae
        exact hnodup.1 (by rw [hae]; exact List.mem_map_of_mem _ hmem)
      rw [List.filter_cons_of_neg (by simp [hne2])]
      exact ih hnodup.2 hmem

theorem nodeOf_eq_self (spans : List UITraceSpan)
    (hnodup : (spans.map (fun s => s.id)).Nodup) (s : UITraceSpan)
    (hs : s ∈ spans) : nodeOf spans s = s := by
  rw [nodeOf, spanLookup, filter_id_singleton spans hnodup s hs]
  rfl

theorem hasId_iff (spans : List UITraceSpan) (p : String) :
    hasId spans p = true ↔ p ∈ spans.map (fun t => t.id) := by
  simp [hasId, List.any_eq_true, beq_iff_eq, List.mem_map]

theorem buildSpanHierarchy_roots (spans : List UITraceSpan)
    (hnodup : (spans.map (fun s => s.id)).Nodup) :
    (buildSpanHierarchy spans).roots = spans.filter (isRootB spans) := by
  rw [buildSpanHierarchy, hier_roots_spec spans spans ⟨[], fun _ => []⟩]
  simp only [List.nil_append]
  exact map_self_of_eq _ _
    (fun x hx => nodeOf_eq_self spans hnodup x (List.mem_of_mem_filter hx))

theorem buildSpanHierarchy_children (spans : List UITraceSpan)
    (hnodup : (spans.map (fun s => s.id)).Nodup) (i : String) :
    (buildSpanHierarchy spans).childrenOf i
      = spans.filter (childB spans i) := by
  rw [buildSpanHierarchy, hier_children_spec spans spans ⟨[], fun _ => []⟩ i]
  simp only [List.nil_append]
  exact map_self_of_eq _ _
    (fun x hx => nodeOf_eq_self spans hnodup x (List.mem_of_mem_filter hx))

theorem isRootB_false_of_childB (ctx : List UITraceSpan) (i : String)
    (s : UITraceSpan) (h : childB ctx i s = true) :
    isRootB ctx s = false := by
  unfold childB at h
  unfold isRootB
  cases hsp : s.parent_id with
  | none => rw [hsp] at h; cases h
  | some p =>
    rw [hsp] at h
    simp only [Bool.and_eq_true] at h
    simp [h.1.2, h.2]

theorem childB_parent (ctx : List UITraceSpan) (i : String)
    (s : UITraceSpan) (h : childB ctx i s = true) :
    s.parent_id = some i := by
  unfold childB at h
  cases hsp : s.parent_id with
  | none => rw [hsp] at h; cases h
  | some p =>
    rw [hsp] at h
    simp only [Bool.and_eq_true, beq_iff_eq] at h
    rw [h.1.1]

/-- The id of a span, looked up through the map for resolving parent
references: the parent id chain followed by the acyclicity check. -/
def parentIdOf (spans : List UITraceSpan) (i : String) : Option String :=
  (spanLookup spans i).bind (fun t => t.parent_id)

/-- The ids reachable by following parent references upward, up to the
given fuel. -/
def ancestorIds (spans : List UITraceSpan) : Nat → Option String → List String
  | 0, _ => []
  | _ + 1, none => []
  | fuel + 1, some i => i :: ancestorIds spans fuel (parentIdOf spans i)

/-- No span is transitively its own ancestor (within chains as long as
the input, which covers every cycle). -/
def acyclicSpans (spans : List UITraceSpan) : Prop :=
  ∀ s ∈ spans, s.id ∉ ancestorIds spans spans.length s.parent_id

instance (spans : List UITraceSpan) : Decidable (acyclicSpans spans) := by
  unfold acyclicSpans
  infer_instance

/-- The forest contract of buildSpanHierarchy: root parent references
are null or unknown; every non-root sits in exactly one children list;
the forest nodes are exactly the input spans; the root list and every
children list are order-preserving selections of the input. -/
def spanForestSpec (spans : List UITraceSpan) : Prop :=
  (∀ s ∈ (buildSpanHierarchy spans).roots,
      s.parent_id = none
      ∨ ∀ p, s.parent_id = some p → p ∉ spans.map (fun t => t.id))
  ∧ (∀ s ∈ spans, s ∉ (buildSpanHierarchy spans).roots →
      ∃ p, p ∈ spans.map (fun t => t.id)
        ∧ s ∈ (buildSpanHierarchy spans).childrenOf p
        ∧ ∀ q, s ∈ (buildSpanHierarchy spans).childrenOf q → q = p)
  ∧ ((buildSpanHierarchy spans).roots
      ++ (spans.map (fun t => t.id)).flatMap
          (buildSpanHierarchy spans).childrenOf).Perm spans
  ∧ (buildSpanHierarchy spans).roots.Sublist spans
  ∧ ∀ i, ((buildSpanHierarchy spans).childrenOf i).Sublist spans

/-- C2 (amended): for inputs with unique, non-empty ids and no span
transitively its own ancestor, buildSpanHierarchy produces a forest in
which every root has a null or unknown parent reference, every
non-root lies in exactly one children list, the nodes are exactly the
input spans, and the root list and all children lists preserve input
order.  (Non-emptiness of ids is required: an empty-string parent
reference is falsy in JavaScript and is promoted to a root even when a
span with the empty id exists.) -/
theorem buildSpanHierarchy_forest_correct (spans : List UITraceSpan)
    (hnodup : (spans.map (fun s => s.id)).Nodup)
    (hne : ∀ s ∈ spans, s.id ≠ "")
    (hacyc : acyclicSpans spans) :
    spanForestSpec spans := by
  have hroots := buildSpanHierarchy_roots spans hnodup
  have hchild := buildSpanHierarchy_children spans hnodup
  refine ⟨?_, ?_, ?_, ?_, ?_⟩
  · intro s hs
    rw [hroots] at hs
    have hrb : isRootB spans s = true := (List.mem_filter.1 hs).2
    cases hsp : s.parent_id with
    | none => exact Or.inl rfl
    | some p =>
      refine Or.inr ?_
      intro p' hp'
      injection hp' with hpe
      subst hpe
      simp only [isRootB, hsp, Bool.not_eq_true'] at hrb
      rcases Bool.and_eq_false_iff.1 hrb with h0 | h0
      · have hp0 : p = "" := by simpa using h0
        subst hp0
        intro hmem
        rcases List.mem_map.1 hmem with ⟨t, htm, hte⟩
        exact hne t htm hte
      · intro hmem
        rw [← hasId_iff] at hmem
        rw [hmem] at h0
        cases h0
  · intro s hs hnr
    have hrb : isRootB spans s = false := by
      cases hb : isRootB spans s with
      | false => rfl
      | true => exact absurd (hroots ▸ List.mem_filter.2 ⟨hs, hb⟩) hnr
    cases hsp : s.parent_id with
    | none => simp [isRootB, hsp] at hrb
    | some p =>
      simp only [isRootB, hsp, Bool.not_eq_false'] at hrb
      rw [Bool.and_eq_true] at hrb
      obtain ⟨h1, h2⟩ := hrb
      have hcb : childB spans p s = true := by
        simp [childB, hsp, h1, h2]
      refine ⟨p, (hasId_iff spans p).1 h2, ?_, ?_⟩
      · rw [hchild p]
        exact List.mem_filter.2 ⟨hs, hcb⟩
      · intro q hq
        rw [hchild q] at hq
        have hpq := childB_parent spans q s (List.mem_filter.1 hq).2
        rw [hsp] at hpq
        injection hpq with hpq
        exact hpq.symm
  · have hspans_nodup : spans.Nodup := List.Nodup.of_map _ hnodup
    have hrn : (buildSpanHierarchy spans).roots.Nodup := by
      rw [hroots]
      exact (List.filter_sublist spans).nodup hspans_nodup
    have hfn : ((spans.map (fun t => t.id)).flatMap
        (buildSpanHierarchy spans).childrenOf).Nodup := by
      rw [List.nodup_flatMap]
      refine ⟨?_, ?_⟩
      · intro i hi
        rw [hchild i]
        exact (List.filter_sublist spans).nodup hspans_nodup
      · refine hnodup.imp ?_
        intro a b hab x hxa hxb
        rw [hchild a] at hxa
        rw [hchild b] at hxb
        have ha := childB_parent spans a x (List.mem_filter.1 hxa).2
        have hb2 := childB_parent spans b x (List.mem_filter.1 hxb).2
        rw [ha] at hb2
        injection hb2 with he
        exact hab he
    have hdisj : (buildSpanHierarchy spans).roots.Disjoint
        ((spans.map (fun t => t.id)).flatMap
          (buildSpanHierarchy spans).childrenOf) := by
      intro x hxr hxf
      rw [hroots] at hxr
      rcases List.mem_flatMap.1 hxf with ⟨i, hi, hxc⟩
      rw [hchild i] at hxc
      have h1 := (List.mem_filter.1 hxr).2
      have h2 := isRootB_false_of_childB spans i x (List.mem_filter.1 hxc).2
      rw [h1] at h2
      cases h2
    rw [List.perm_ext_iff_of_nodup (List.Nodup.append hrn hfn hdisj)
      hspans_nodup]
    intro a
    constructor
    · intro ha
      rcases List.mem_append.1 ha with h1 | h1
      · rw [hroots] at h1
        exact (List.mem_filter.1 h1).1
      · rcases List.mem_flatMap.1 h1 with ⟨i, hi, hxc⟩
        rw [hchild i] at hxc
        exact (List.mem_filter.1 hxc).1
    · intro ha
      by_cases hb : isRootB spans a = true
      · exact List.mem_append.2 (Or.inl (hroots ▸ List.mem_filter.2 ⟨ha, hb⟩))
      · have hrb : isRootB spans a = false := by simpa using hb
        cases hsp : a.parent_id with
        | none => simp [isRootB, hsp] at hrb
        | some p =>
          simp only [isRootB, hsp, Bool.not_eq_false'] at hrb
          rw [Bool.and_eq_true] at hrb
          obtain ⟨h1, h2⟩ := hrb
          have hcb : childB spans p a = true := by
            simp [childB, hsp, h1, h2]
          refine List.mem_append.2 (Or.inr (List.mem_flatMap.2
            ⟨p, (hasId_iff spans p).1 h2, ?_⟩))
          rw [hchild p]
          exact List.mem_filter.2 ⟨ha, hcb⟩
  · rw [hroots]
    exact List.filter_sublist spans
  · intro i
    rw [hchild i]
    exact List.filter_sublist spans

/-- C2, counterexample to the claim as stated: with unique ids and no
cycle, the span with id `a` declares the existing span id (the empty
string) as its parent, yet it is emitted as a root, because the
JavaScript test `span.parent_id &&` treats the empty string as falsy.
So a root may carry a parent reference that is present in the input. -/
theorem buildSpanHierarchy_empty_id_counterexample :
    (([⟨"", none, "r", "other", 0⟩, ⟨"a", some "", "c", "other", 0⟩]
        : List UITraceSpan).map (fun t => t.id)).Nodup
    ∧ acyclicSpans
        [⟨"", none, "r", "other", 0⟩, ⟨"a", some "", "c", "other", 0⟩]
    ∧ (⟨"a", some "", "c", "other", 0⟩ : UITraceSpan)
        ∈ (buildSpanHierarchy
            [⟨"", none, "r", "other", 0⟩,
             ⟨"a", some "", "c", "other", 0⟩]).roots
    ∧ (⟨"a", some "", "c", "other", 0⟩ : UITraceSpan).parent_id = some ""
    ∧ "" ∈ ([⟨"", none, "r", "other", 0⟩, ⟨"a", some "", "c", "other", 0⟩]
        : List UITraceSpan).map (fun t => t.id) := by
  refine ⟨by decide, by decide, ?_, rfl, by decide⟩
  decide

theorem buildSpanHierarchy_forest_correct_witness :
    spanForestSpec
      [⟨"1", none, "root", "generation", 5⟩,
       ⟨"2", some "1", "llm", "generation", 3⟩,
       ⟨"3", some "1", "tool", "tool_call", 2⟩,
       ⟨"4", some "99", "orphan", "event", 1⟩] :=
  buildSpanHierarchy_forest_correct _ (by decide) (by decide) (by decide)

/-- `Math.floor(offset / limit) + 1` (ConversationDetail line 60 and
memory-screen line 137).  Integer division on Int is floor division,
which coincides with Math.floor of the real quotient for a positive
limit. -/
def currentPage (offset limit : Int) : Int := offset / limit + 1

/-- `Math.ceil(total / limit)` (ConversationDetail line 59 and
memory-screen line 136), written as integer arithmetic: for a positive
limit, the ceiling of the real quotient equals this floor division. -/
def totalPages (total limit : Int) : Int := (total + limit - 1) / limit

/-- C3, counterexample to the claim as stated: at limit 10, offset
100, total 5 (all in the claimed ranges) the derived current page is
11 while max(total pages, 1) is 1, so the claimed bound fails; the
bound needs the offset to lie inside the collection. -/
theorem currentPage_exceeds_totalPages_counterexample :
    (0 : Int) < 10 ∧ (0 : Int) ≤ 100 ∧ (0 : Int) ≤ 5
    ∧ ¬ currentPage 100 10 ≤ max (totalPages 5 10) 1 := by decide

/-- C3 (amended): for limit > 0, offset ≥ 0, total ≥ 0 with the offset
inside the collection (offset < max(total, limit), which holds for
every page the UI can request), the derived values satisfy
1 ≤ current page ≤ max(total pages, 1). -/
theorem pagination_page_bounds (limit offset total : Int)
    (hl : 0 < limit) (ho : 0 ≤ offset) (ht : 0 ≤ total)
    (hb : offset < max total limit) :
    1 ≤ currentPage offset limit
    ∧ currentPage offset limit ≤ max (totalPages total limit) 1 := by
  constructor
  · have hnn := Int.ediv_nonneg ho (le_of_lt hl)
    unfold currentPage
    linarith
  · by_cases hcase : offset < limit
    · have h0 : offset / limit = 0 := Int.ediv_eq_zero_of_lt ho hcase
      unfold currentPage
      rw [h0]
      simp [le_max_right]
    · push_neg at hcase
      have hot : offset < total := by
        rcases le_total total limit with hm | hm
        · rw [max_eq_right hm] at hb
          linarith
        · rw [max_eq_left hm] at hb
          exact hb
      have h1 : offset + limit ≤ total + limit - 1 := by linarith
      have h2 : (offset + limit) / limit ≤ (total + limit - 1) / limit :=
        Int.ediv_le_ediv hl h1
      have h3 : (offset + limit) / limit = offset / limit + 1 := by
        rw [show offset + limit = offset + 1 * limit by ring]
        exact Int.add_mul_ediv_right offset 1 (ne_of_gt hl)
      unfold currentPage totalPages
      calc offset / limit + 1 = (offset + limit) / limit := h3.symm
        _ ≤ (total + limit - 1) / limit := h2
        _ ≤ max ((total + limit - 1) / limit) 1 := le_max_left _ _

theorem pagination_page_bounds_witness :
    1 ≤ currentPage 20 10 ∧ currentPage 20 10 ≤ max (totalPages 35 10) 1 :=
  pagination_page_bounds 10 20 35 (by decide) (by decide) (by decide)
    (by decide)

/-- The pagination-relevant state of a listing screen: the cursor
triple, the loading flag, and the currently displayed items. -/
structure PageState where
  offset : Int
  limit : Int
  total : Int
  loading : Bool
  items : List String
deriving DecidableEq

/-- handleNextPage of traces-screen (lines 154-161): advance one page
only when a further page exists. -/
def tracesHandleNextPage (st : PageState) : PageState :=
  if st.offset + st.limit < st.total then
    { st with offset := st.offset + st.limit }
  else st

/-- handlePrevPage of traces-screen (lines 163-170): retreat one page,
clamped at zero, only when the offset is positive. -/
def tracesHandlePrevPage (st : PageState) : PageState :=
  if st.offset > 0 then
    { st with offset := max 0 (st.offset - st.limit) }
  else st

/-- The disabled guard of the memory-screen Next button (line 268). -/
def memoryNextDisabled (st : PageState) : Prop :=
  currentPage st.offset st.limit = totalPages st.total st.limit
    ∨ st.loading = true

instance (st : PageState) : Decidable (memoryNextDisabled st) := by
  unfold memoryNextDisabled
  infer_instance

/-- The disabled guard of the memory-screen Previous button
(line 260). -/
def memoryPrevDisabled (st : PageState) : Prop :=
  currentPage st.offset st.limit = 1 ∨ st.loading = true

instance (st : PageState) : Decidable (memoryPrevDisabled st) := by
  unfold memoryPrevDisabled
  infer_instance

/-- The memory-screen next-page operation: the unguarded
handleNextPage (lines 87-89) behind the disabled Next button, which
ignores clicks while disabled. -/
def memoryNextPageOp (st : PageState) : PageState :=
  if memoryNextDisabled st then st
  else { st with offset := st.offset + st.limit }

/-- The memory-screen previous-page operation: handlePrevPage
(lines 91-93, `Math.max(0, prev - limit)`) behind the disabled
Previous button. -/
def memoryPrevPageOp (st : PageState) : PageState :=
  if memoryPrevDisabled st then st
  else { st with offset := max 0 (st.offset - st.limit) }

/-- C8 (confirmed): under the PaginationState invariant of the data
model (limit > 0, offset a nonnegative multiple of limit), next-page
is a no-op when the current page equals the total pages and
previous-page is a no-op on page one — on both the traces screen and
the memory screen, leaving offset, limit, total and the displayed
items untouched — and previous-page never drives the offset below
zero in any state. -/
theorem pagination_boundary_noop (st : PageState)
    (hl : 0 < st.limit) (ho : 0 ≤ st.offset)
    (hdvd : st.limit ∣ st.offset) :
    (currentPage st.offset st.limit = totalPages st.total st.limit →
      tracesHandleNextPage st = st)
    ∧ (currentPage st.offset st.limit = 1 → tracesHandlePrevPage st = st)
    ∧ (currentPage st.offset st.limit = totalPages st.total st.limit →
      memoryNextPageOp st = st)
    ∧ (currentPage st.offset st.limit = 1 → memoryPrevPageOp st = st)
    ∧ 0 ≤ (tracesHandlePrevPage st).offset
    ∧ 0 ≤ (memoryPrevPageOp st).offset := by
  have hmod : st.offset % st.limit = 0 := Int.emod_eq_zero_of_dvd hdvd
  have hzero : currentPage st.offset st.limit = 1 → st.offset = 0 := by
    intro hcp
    unfold currentPage at hcp
    have hdz : st.offset / st.limit = 0 := by linarith
    have e1 := Int.ediv_add_emod st.offset st.limit
    rw [hdz, hmod] at e1
    linarith
  refine ⟨?_, ?_, ?_, ?_, ?_, ?_⟩
  · intro hcp
    unfold currentPage totalPages at hcp
    have e1 := Int.ediv_add_emod st.offset st.limit
    have e2 := Int.ediv_add_emod (st.total + st.limit - 1) st.limit
    rw [← hcp] at e2
    have e3 : st.limit * (st.offset / st.limit + 1)
        = st.limit * (st.offset / st.limit) + st.limit := by ring
    have hr1 : 0 ≤ (st.total + st.limit - 1) % st.limit :=
      Int.emod_nonneg _ (ne_of_gt hl)
    have hr2 : (st.total + st.limit - 1) % st.limit < st.limit :=
      Int.emod_lt_of_pos _ hl
    unfold tracesHandleNextPage
    rw [if_neg (by linarith)]
  · intro hcp
    have h0 := hzero hcp
    unfold tracesHandlePrevPage
    rw [if_neg (by simp [h0])]
  · intro hcp
    unfold memoryNextPageOp
    rw [if_pos (show memoryNextDisabled st from Or.inl hcp)]
  · intro hcp
    unfold memoryPrevPageOp
    rw [if_pos (show memoryPrevDisabled st from Or.inl hcp)]
  · unfold tracesHandlePrevPage
    split
    · simp
    · exact ho
  · unfold memoryPrevPageOp
    split
    · exact ho
    · simp

theorem pagination_boundary_noop_witness :
    ((currentPage (50 : Int) 25 = totalPages 75 25 →
      tracesHandleNextPage ⟨50, 25, 75, false, ["t1"]⟩
        = ⟨50, 25, 75, false, ["t1"]⟩)
    ∧ (currentPage (50 : Int) 25 = 1 →
      tracesHandlePrevPage ⟨50, 25, 75, false, ["t1"]⟩
        = ⟨50, 25, 75, false, ["t1"]⟩)
    ∧ (currentPage (50 : Int) 25 = totalPages 75 25 →
      memoryNextPageOp ⟨50, 25, 75, false, ["t1"]⟩
        = ⟨50, 25, 75, false, ["t1"]⟩)
    ∧ (currentPage (50 : Int) 25 = 1 →
      memoryPrevPageOp ⟨50, 25, 75, false, ["t1"]⟩
        = ⟨50, 25, 75, false, ["t1"]⟩)
    ∧ 0 ≤ (tracesHandlePrevPage ⟨50, 25, 75, false, ["t1"]⟩).offset
    ∧ 0 ≤ (memoryPrevPageOp ⟨50, 25, 75, false, ["t1"]⟩).offset) :=
  pagination_boundary_noop ⟨50, 25, 75, false, ["t1"]⟩ (by decide)
    (by decide) (by decide)

/-- A memory entry as displayed by the memory views. -/
structure MemoryEntry where
  id : String
  role : String
  content : String
  timestamp : Int
deriving DecidableEq

/-- A per-conversation summary as displayed by the conversation
list. -/
structure ConversationInfo where
  id : String
  message_count : Nat
  last_message : Option String
  last_activity : Int
deriving DecidableEq

/-- The memory list response: the `mode` discriminator with its two
mode-selected arrays, the legacy `entries` field (absent when the key
is missing), and the reported total. -/
structure MemoryResponse where
  mode : Option String
  messages : Option (List MemoryEntry)
  conversations : Option (List ConversationInfo)
  entries : Option (List MemoryEntry)
  total : Int
deriving DecidableEq

/-- The entry extraction of loadMore (memory-browser lines 97-104),
identical to the branch structure of loadMemory: mode `messages` with
a present messages array selects it verbatim; otherwise a present
legacy `entries` field is selected (null coalesced to empty by
`|| []`); otherwise `newEntries` stays empty. -/
def responseEntries (r : MemoryResponse) : List MemoryEntry :=
  if r.mode = some "messages" ∧ r.messages.isSome then r.messages.getD []
  else if r.entries.isSome then r.entries.getD []
  else []

/-- The state update of loadMemory (memory-browser lines 36-57): the
same two branches, but when neither matches, `setEntries` is never
called and the previously loaded entries remain. -/
def loadMemoryEntries (prev : List MemoryEntry) (r : MemoryResponse) :
    List MemoryEntry :=
  if r.mode = some "messages" ∧ r.messages.isSome then r.messages.getD []
  else if r.entries.isSome then r.entries.getD []
  else prev

/-- loadConversations (memory-screen lines 64-79): mode
`conversations` with a present conversations array selects it
verbatim, anything else resets the list to empty. -/
def loadConversationsResult (r : MemoryResponse) : List ConversationInfo :=
  if r.mode = some "conversations" ∧ r.conversations.isSome then
    r.conversations.getD []
  else []

/-- C4, counterexample to the claim as stated: on a response with none
of the recognised fields, the loadMemory accessor does not return an
empty list; it leaves the previously loaded entries in place. -/
theorem loadMemory_keeps_stale_entries_counterexample :
    loadMemoryEntries [⟨"m1", "user", "hi", 0⟩] ⟨none, none, none, none, 0⟩
      = [⟨"m1", "user", "hi", 0⟩]
    ∧ loadMemoryEntries [⟨"m1", "user", "hi", 0⟩]
        ⟨none, none, none, none, 0⟩ ≠ [] := by decide

/-- C4 (amended): mode `messages` selects the messages array verbatim
(loadMemory, loadMore); mode `conversations` selects the conversations
array verbatim (loadConversations); with neither mode selection, a
present legacy `entries` field is returned verbatim; with none of
those, loadMore contributes an empty list and loadConversations resets
to empty, while loadMemory keeps the previously loaded entries
unchanged (empty only when nothing was loaded before). -/
theorem memory_accessor_branches (r : MemoryResponse)
    (prev : List MemoryEntry) :
    (∀ ms, r.mode = some "messages" → r.messages = some ms →
      responseEntries r = ms ∧ loadMemoryEntries prev r = ms)
    ∧ (∀ cs, r.mode = some "conversations" → r.conversations = some cs →
      loadConversationsResult r = cs)
    ∧ (∀ es, r.mode ≠ some "messages" → r.mode ≠ some "conversations" →
        r.entries = some es →
      responseEntries r = es ∧ loadMemoryEntries prev r = es)
    ∧ (r.mode = none → r.messages = none → r.conversations = none →
        r.entries = none →
      responseEntries r = [] ∧ loadConversationsResult r = []
        ∧ loadMemoryEntries prev r = prev) := by
  refine ⟨?_, ?_, ?_, ?_⟩
  · intro ms h1 h2
    constructor <;> simp [responseEntries, loadMemoryEntries, h1, h2]
  · intro cs h1 h2
    simp [loadConversationsResult, h1, h2]
  · intro es h1 h2 h3
    constructor <;>
      simp [responseEntries, loadMemoryEntries, h1, h3]
  · intro h1 h2 h3 h4
    refine ⟨?_, ?_, ?_⟩ <;>
      simp [responseEntries, loadConversationsResult, loadMemoryEntries,
        h1, h2, h3, h4]

theorem memory_accessor_branches_witness :
    ((∀ ms, (some "messages" : Option String) = some "messages" →
      some [(⟨"m1", "user", "hi", 0⟩ : MemoryEntry)] = some ms →
      responseEntries
          ⟨some "messages", some [⟨"m1", "user", "hi", 0⟩], none, none, 1⟩
        = ms
      ∧ loadMemoryEntries []
          ⟨some "messages", some [⟨"m1", "user", "hi", 0⟩], none, none, 1⟩
        = ms)
    ∧ (∀ cs, (some "messages" : Option String) = some "conversations" →
      (none : Option (List ConversationInfo)) = some cs →
      loadConversationsResult
          ⟨some "messages", some [⟨"m1", "user", "hi", 0⟩], none, none, 1⟩
        = cs)
    ∧ (∀ es, (some "messages" : Option String) ≠ some "messages" →
        (some "messages" : Option String) ≠ some "conversations" →
        (none : Option (List MemoryEntry)) = some es →
      responseEntries
          ⟨some "messages", some [⟨"m1", "user", "hi", 0⟩], none, none, 1⟩
        = es
      ∧ loadMemoryEntries []
          ⟨some "messages", some [⟨"m1", "user", "hi", 0⟩], none, none, 1⟩
        = es)
    ∧ ((some "messages" : Option String) = none →
        (some [(⟨"m1", "user", "hi", 0⟩ : MemoryEntry)]
          : Option (List MemoryEntry)) = none →
        (none : Option (List ConversationInfo)) = none →
        (none : Option (List MemoryEntry)) = none →
      responseEntries
          ⟨some "messages", some [⟨"m1", "user", "hi", 0⟩], none, none, 1⟩
        = []
      ∧ loadConversationsResult
          ⟨some "messages", some [⟨"m1", "user", "hi", 0⟩], none, none, 1⟩
        = []
      ∧ loadMemoryEntries []
          ⟨some "messages", some [⟨"m1", "user", "hi", 0⟩], none, none, 1⟩
        = [])) :=
  memory_accessor_branches
    ⟨some "messages", some [⟨"m1", "user", "hi", 0⟩], none, none, 1⟩ []

/-- The pagination-relevant state of the memory browser dialog. -/
structure BrowserState where
  entries : List MemoryEntry
  limit : Int
  offset : Int
  total : Int
deriving DecidableEq

/-- The page request issued by loadMore (memory-browser lines 94-95):
`getMemory(pagination.limit, newOffset)` with
`newOffset = pagination.offset + pagination.limit`. -/
def loadMoreRequest (st : BrowserState) : Int × Int :=
  (st.limit, st.offset + st.limit)

/-- The state update of loadMore (memory-browser lines 91-115) applied
to the fetched response: the previous entries followed by the newly
extracted entries, offset advanced to newOffset; limit and total
untouched. -/
def loadMore (st : BrowserState) (r : MemoryResponse) : BrowserState :=
  { st with
    entries := st.entries ++ responseEntries r,
    offset := st.offset + st.limit }

/-- C9 (confirmed): load-more fetches the page at offset + limit and
appends the fetched entries after the existing ones with no
de-duplication: the old entries form an unchanged prefix, the length
is the exact sum regardless of id collisions, the offset advances by
exactly the limit, and limit and total are unchanged. -/
theorem loadMore_appends_without_dedup (st : BrowserState)
    (r : MemoryResponse) :
    loadMoreRequest st = (st.limit, st.offset + st.limit)
    ∧ (loadMore st r).entries = st.entries ++ responseEntries r
    ∧ (loadMore st r).entries.take st.entries.length = st.entries
    ∧ (loadMore st r).entries.length
        = st.entries.length + (responseEntries r).length
    ∧ (loadMore st r).offset = st.offset + st.limit
    ∧ (loadMore st r).limit = st.limit
    ∧ (loadMore st r).total = st.total := by
  refine ⟨rfl, rfl, ?_, ?_, rfl, rfl, rfl⟩
  · exact List.take_left st.entries (responseEntries r)
  · simp [loadMore]
